import Mathlib

/-!
Verification of the NBT parser (`nbtparser/parser.go`).

The embedding represents Go byte slices as `List Nat` (each entry a byte
value 0–255; theorems that depend on the byte range take an explicit
`IsByteBuf` hypothesis).  Go's `uint16`/`uint32` arithmetic is modelled with
explicit `% 2^16` / `% 2^32`.  Every operation that can abort at run time —
an out-of-range slice index, an invalid slice expression, or a call through
a `nil` entry obtained from a map lookup miss — is modelled by an `Option`
result, `none` standing for the Go run-time panic.  The parser's mutual
recursion is driven by an explicit `fuel : Nat` argument (a bookkeeping
device for termination only; `none` is also returned when fuel runs out,
and success is fuel-monotone, see `parseMonoAll`).
-/

set_option maxRecDepth 10000

mutual
/-- Payload values (`type Tag interface{}` in parser.go).  A decoded payload
is one of: `nil` (End), a raw byte (`payload[0]`, Go `byte`), a signed
16/32/64-bit integer, a 32/64-bit float (kept as its IEEE-754 bit pattern,
since only the big-endian byte assembly is relevant here), a byte slice, a
string (kept as its byte sequence), a `ListTag{listType, elements}`, or a
`[]NamedTag` compound payload. -/
inductive Tag : Type where
  | nilTag : Tag
  | byteVal : Nat → Tag
  | shortVal : Int → Tag
  | intVal : Int → Tag
  | longVal : Int → Tag
  | floatVal : Nat → Tag
  | doubleVal : Nat → Tag
  | byteArr : List Nat → Tag
  | strVal : List Nat → Tag
  | listTag : Nat → List Tag → Tag
  | compound : List NamedTag → Tag

/-- `type NamedTag struct { tagType TagType; name string; payload Tag }`
(parser.go).  The tag type is the raw identifier byte, the name its byte
sequence. -/
inductive NamedTag : Type where
  | mk : Nat → List Nat → Tag → NamedTag
end

/-- Field accessor for `NamedTag.tagType`. -/
def NamedTag.tagType : NamedTag → Nat
  | .mk t _ _ => t

/-- Field accessor for `NamedTag.name`. -/
def NamedTag.name : NamedTag → List Nat
  | .mk _ n _ => n

/-- Field accessor for `NamedTag.payload`. -/
def NamedTag.payload : NamedTag → Tag
  | .mk _ _ p => p

/-- The buffer is a genuine byte buffer: every entry is a byte value. -/
def IsByteBuf (d : List Nat) : Prop := ∀ b ∈ d, b < 256

instance : DecidablePred IsByteBuf := fun d =>
  inferInstanceAs (Decidable (∀ b ∈ d, b < 256))

/-- `binary.BigEndian.Uint16(d[i:i+2])`: the slice panics unless
`i+2 ≤ len(d)`; on success the two bytes are combined big-endian. -/
def readU16 (d : List Nat) (i : Nat) : Option Nat :=
  if i + 2 ≤ d.length then some (d.getD i 0 * 256 + d.getD (i+1) 0) else none

/-- `binary.BigEndian.Uint32(d[i:i+4])`, big-endian. -/
def readU32 (d : List Nat) (i : Nat) : Option Nat :=
  if i + 4 ≤ d.length then
    some (((d.getD i 0 * 256 + d.getD (i+1) 0) * 256 + d.getD (i+2) 0) * 256
      + d.getD (i+3) 0)
  else none

/-- `binary.BigEndian.Uint64(d[i:i+8])`, big-endian. -/
def readU64 (d : List Nat) (i : Nat) : Option Nat :=
  if i + 8 ≤ d.length then
    some (((((((d.getD i 0 * 256 + d.getD (i+1) 0) * 256 + d.getD (i+2) 0)
      * 256 + d.getD (i+3) 0) * 256 + d.getD (i+4) 0) * 256 + d.getD (i+5) 0)
      * 256 + d.getD (i+6) 0) * 256 + d.getD (i+7) 0)
  else none

/-- Go slice expression `d[lo:hi]`: panics unless `lo ≤ hi ≤ len(d)`. -/
def goSlice (d : List Nat) (lo hi : Nat) : Option (List Nat) :=
  if lo ≤ hi ∧ hi ≤ d.length then some ((d.drop lo).take (hi - lo)) else none

/-- Go conversion `int16(w)` of an unsigned 16-bit value. -/
def toInt16 (n : Nat) : Int := if n < 32768 then (n : Int) else (n : Int) - 65536

/-- Go conversion `int32(w)` of an unsigned 32-bit value. -/
def toInt32 (n : Nat) : Int :=
  if n < 2147483648 then (n : Int) else (n : Int) - 4294967296

/-- Go conversion `int64(w)` of an unsigned 64-bit value. -/
def toInt64 (n : Nat) : Int :=
  if n < 9223372036854775808 then (n : Int) else (n : Int) - 18446744073709551616

mutual

/-- `func parseNamedTag(data []byte) (NamedTag, uint)` (parser.go:203-223).
Reads `data[0]` as the tag type; for a non-End tag reads a big-endian
`uint16` name length from `data[1:3]`, takes the name from
`data[3 : 3+nameLength]` (the upper bound computed in `uint16`, hence the
`% 65536`), and decodes the payload from `data[payloadStart:]` through the
dispatch table; returns the tag and `payloadStart + payloadLength`.  For an
End tag the name is `""` and `payloadStart = 1`. -/
def parseNamedTag : Nat → List Nat → Option (NamedTag × Nat)
  | 0, _ => none
  | fuel+1, data =>
    match data with
    | [] => none
    | t :: _ =>
      if t = 0 then
        (tagParseFuncs fuel 0 (data.drop 1)).map fun pr =>
          (.mk 0 [] pr.1, 1 + pr.2)
      else
        (readU16 data 1).bind fun nameLength =>
          (goSlice data 3 ((3 + nameLength) % 65536)).bind fun nm =>
            (tagParseFuncs fuel t (data.drop ((3 + nameLength) % 65536))).map
              fun pr => (.mk t nm pr.1, (3 + nameLength) % 65536 + pr.2)

/-- The dispatch table `tagParseFuncs` (parser.go:147-169) combined with the
lookup-and-call through `tagParseFuncsRef`.  A lookup with an identifier
outside 0–10 yields the map's zero value — a `nil` function — and calling it
panics, modelled by `none`.  Each scalar entry mirrors its Go closure; note
the `uint32`/`uint16` additions `4 + length` / `2 + length` in the
ByteArray/String entries, modelled with the corresponding `%`. -/
def tagParseFuncs : Nat → Nat → List Nat → Option (Tag × Nat)
  | 0, _, _ => none
  | _+1, 0, _ => some (.nilTag, 0)
  | _+1, 1, payload =>
    match payload with
    | b :: _ => some (.byteVal b, 1)
    | [] => none
  | _+1, 2, payload =>
    (readU16 payload 0).map fun w => (.shortVal (toInt16 w), 2)
  | _+1, 3, payload =>
    (readU32 payload 0).map fun w => (.intVal (toInt32 w), 4)
  | _+1, 4, payload =>
    (readU64 payload 0).map fun w => (.longVal (toInt64 w), 8)
  | _+1, 5, payload =>
    (readU32 payload 0).map fun w => (.floatVal w, 4)
  | _+1, 6, payload =>
    (readU64 payload 0).map fun w => (.doubleVal w, 8)
  | _+1, 7, payload =>
    (readU32 payload 0).bind fun len =>
      (goSlice payload 4 ((4 + len) % 4294967296)).map fun bs =>
        (.byteArr bs, (4 + len) % 4294967296)
  | _+1, 8, payload =>
    (readU16 payload 0).bind fun len =>
      (goSlice payload 2 ((2 + len) % 65536)).map fun s =>
        (.strVal s, (2 + len) % 65536)
  | fuel+1, 9, payload => parseListTag fuel payload
  | fuel+1, 10, payload => parseCompoundTag fuel payload
  | _+1, _+11, _ => none

/-- `func parseCompoundTag(payload []byte) (Tag, uint)` (parser.go:171-183):
wraps the accumulated `[]NamedTag` of `parseCompoundLoop` as the payload. -/
def parseCompoundTag : Nat → List Nat → Option (Tag × Nat)
  | 0, _ => none
  | fuel+1, payload =>
    (parseCompoundLoop fuel payload).map fun pr => (.compound pr.1, pr.2)

/-- The `for` loop of `parseCompoundTag`: repeatedly `parseNamedTag` on
`payload[current:]` (the re-slice panics if `current > len(payload)`),
adding each consumed count to `current`; stops — counting its length but not
appending it — at a tag whose type is End. -/
def parseCompoundLoop : Nat → List Nat → Option (List NamedTag × Nat)
  | 0, _ => none
  | fuel+1, payload =>
    (parseNamedTag fuel payload).bind fun pr =>
      if pr.1.tagType = 0 then some ([], pr.2)
      else if pr.2 ≤ payload.length then
        (parseCompoundLoop fuel (payload.drop pr.2)).map fun pr' =>
          (pr.1 :: pr'.1, pr.2 + pr'.2)
      else none

/-- `func parseListTag(payload []byte) (Tag, uint)` (parser.go:190-201):
reads `payload[0]` as the element type, `Uint32(payload[1:5])` big-endian as
the count, then runs the element loop starting at offset 5. -/
def parseListTag : Nat → List Nat → Option (Tag × Nat)
  | 0, _ => none
  | fuel+1, payload =>
    match payload with
    | [] => none
    | t :: _ =>
      (readU32 payload 1).bind fun count =>
        (parseListLoop fuel t count (payload.drop 5)).map fun pr =>
          (.listTag t pr.1, 5 + pr.2)

/-- The `for i := 0; i < int(length); i++` loop of `parseListTag`: `count`
times, calls the dispatch-table entry for the element type directly on the
unnamed payload `payload[current:]` (the re-slice panics when
`current > len(payload)`), accumulating consumed byte counts. -/
def parseListLoop : Nat → Nat → Nat → List Nat → Option (List Tag × Nat)
  | _, _, 0, _ => some ([], 0)
  | 0, _, _+1, _ => none
  | fuel+1, t, count+1, payload =>
    (tagParseFuncs fuel t payload).bind fun pr =>
      if pr.2 ≤ payload.length then
        (parseListLoop fuel t count (payload.drop pr.2)).map fun pr' =>
          (pr.1 :: pr'.1, pr.2 + pr'.2)
      else none

end

/-- `func ParseNBT(data []byte, isCompressed bool) NamedTag` (parser.go:23-36),
on the `isCompressed = false` path (the gzip branch is the external
decompression collaborator, out of scope).  It assigns
`tagParseFuncsRef = tagParseFuncs`, calls `parseNamedTag` on the whole
buffer and discards the returned consumed-byte count. -/
def ParseNBT (fuel : Nat) (data : List Nat) : Option NamedTag :=
  (parseNamedTag fuel data).map fun pr => pr.1

/-- The `typeToString` map (parser.go:49-61); a lookup outside 0–10 returns
the map's zero value, the empty string. -/
def typeToString : Nat → String
  | 0 => "TAG_End"
  | 1 => "TAG_Byte"
  | 2 => "TAG_Short"
  | 3 => "TAG_Int"
  | 4 => "TAG_Long"
  | 5 => "TAG_Float"
  | 6 => "TAG_Double"
  | 7 => "TAG_Byte_Array"
  | 8 => "TAG_String"
  | 9 => "TAG_List"
  | 10 => "TAG_Compound"
  | _ => ""

/-- Rendering of a byte sequence as a Go string (`%s`/`%v` of a `string`).
Byte-to-character decoding is approximated code-point-wise; the structural
claims about the renderer do not depend on it. -/
def strOfBytes (bs : List Nat) : String := String.mk (bs.map Char.ofNat)

/-- `fmt.Sprintf("%v", tag)` for the scalar fall-through branch of the
renderer.  Integers print in decimal, a `nil` payload prints `<nil>`, a byte
slice prints bracketed space-separated decimals, a string prints itself.
Go's shortest-decimal formatting of floats is outside the embedding; the
float cases render their IEEE-754 bit pattern, and the aggregate cases
(which the renderer's scalar branch is never given by decoded trees) render
their Go default form only approximately — no claim depends on either. -/
def goValueString : Tag → String
  | .nilTag => "<nil>"
  | .byteVal b => toString b
  | .shortVal v => toString v
  | .intVal v => toString v
  | .longVal v => toString v
  | .floatVal bits => toString bits
  | .doubleVal bits => toString bits
  | .byteArr bs => "[" ++ String.intercalate " " (bs.map toString) ++ "]"
  | .strVal s => strOfBytes s
  | .listTag _ _ => "?"
  | .compound _ => "?"

mutual

/-- `func (tag NamedTag) Print(buffer *string, prefix string)`
(parser.go:125-144), modelled as the text it appends to the buffer.  Emits
`prefix + typeToString[tagType]`, then either the compound form
`("name"): N entries\n prefix { children } `, the list form, or the scalar
form `("name"): value\n`.  The Go type assertions `.([]NamedTag)` /
`.(ListTag)` panic when the payload has a different shape (`none` here).
Children are rendered with the two-space-extended `"  " + prefix`.  The
`fuel` argument is a termination bookkeeping device only. -/
def NamedTag.Print : Nat → NamedTag → String → Option String
  | 0, _, _ => none
  | fuel+1, .mk tt nm payload, pfx =>
    if tt = 10 then
      match payload with
      | .compound elems =>
        (printNamedList fuel elems ("  " ++ pfx)).map fun body =>
          pfx ++ typeToString tt ++ "(\"" ++ strOfBytes nm ++ "\"): "
            ++ toString elems.length ++ " entries\n" ++ pfx ++ "\x7b\n"
            ++ body ++ pfx ++ "\x7d\n"
      | _ => none
    else if tt = 9 then
      match payload with
      | .listTag lt elems =>
        (printUnnamedList fuel ("  " ++ pfx) elems lt).map fun body =>
          pfx ++ typeToString tt ++ "(\"" ++ strOfBytes nm ++ "\"): "
            ++ toString elems.length ++ " entries of type " ++ typeToString lt
            ++ "\n" ++ pfx ++ "\x7b\n" ++ body ++ pfx ++ "\x7d\n"
      | _ => none
    else
      some (pfx ++ typeToString tt ++ "(\"" ++ strOfBytes nm ++ "\"): "
        ++ goValueString payload ++ "\n")

/-- `func printUnnamedTag(buffer *string, prefix string, tag Tag, tagType
TagType)` (parser.go:104-123), modelled as the text appended: like
`NamedTag.Print` but with no `("name")` part, used for list elements. -/
def printUnnamedTag : Nat → String → Tag → Nat → Option String
  | 0, _, _, _ => none
  | fuel+1, pfx, tag, tagType =>
    if tagType = 10 then
      match tag with
      | .compound elems =>
        (printNamedList fuel elems ("  " ++ pfx)).map fun body =>
          pfx ++ typeToString tagType ++ ": " ++ toString elems.length
            ++ " entries\n" ++ pfx ++ "\x7b\n" ++ body ++ pfx ++ "\x7d\n"
      | _ => none
    else if tagType = 9 then
      match tag with
      | .listTag lt elems =>
        (printUnnamedList fuel ("  " ++ pfx) elems lt).map fun body =>
          pfx ++ typeToString tagType ++ ": " ++ toString elems.length
            ++ " entries of type " ++ typeToString lt ++ "\n" ++ pfx
            ++ "\x7b\n" ++ body ++ pfx ++ "\x7d\n"
      | _ => none
    else
      some (pfx ++ typeToString tagType ++ ": " ++ goValueString tag ++ "\n")

/-- The `for _, element := range elements { element.Print(buffer, ...) }`
loop of the compound branches: concatenation of the children's renderings. -/
def printNamedList : Nat → List NamedTag → String → Option String
  | 0, _, _ => none
  | _+1, [], _ => some ""
  | fuel+1, t :: ts, pfx =>
    (NamedTag.Print fuel t pfx).bind fun s =>
      (printNamedList fuel ts pfx).map fun rest => s ++ rest

/-- The element loop of the list branches: concatenation of the unnamed
renderings of the elements, all at the list's element type. -/
def printUnnamedList : Nat → String → List Tag → Nat → Option String
  | 0, _, _, _ => none
  | _+1, _, [], _ => some ""
  | fuel+1, pfx, t :: ts, tagType =>
    (printUnnamedTag fuel pfx t tagType).bind fun s =>
      (printUnnamedList fuel pfx ts tagType).map fun rest => s ++ rest

end

example : NamedTag.Print 10 (.mk 10 [] (.compound [.mk 1 [120] (.byteVal 7)])) "" =
    some "TAG_Compound(\"\"): 1 entries\n\x7b\n  TAG_Byte(\"x\"): 7\n\x7d\n" := by
  rfl

/-- Success of any of the parsing functions is monotone in the fuel: the
fuel is a termination bookkeeping device, not part of the semantics. -/
theorem parseMonoAll : ∀ fuel fuel', fuel ≤ fuel' →
    (∀ d r, parseNamedTag fuel d = some r → parseNamedTag fuel' d = some r) ∧
    (∀ t d r, tagParseFuncs fuel t d = some r → tagParseFuncs fuel' t d = some r) ∧
    (∀ d r, parseCompoundTag fuel d = some r → parseCompoundTag fuel' d = some r) ∧
    (∀ d r, parseCompoundLoop fuel d = some r → parseCompoundLoop fuel' d = some r) ∧
    (∀ d r, parseListTag fuel d = some r → parseListTag fuel' d = some r) ∧
    (∀ t c d r, parseListLoop fuel t c d = some r → parseListLoop fuel' t c d = some r) := by
  intro fuel
  induction fuel with
  | zero =>
    intro fuel' _
    refine ⟨?_, ?_, ?_, ?_, ?_, ?_⟩
    · intro d r h; simp [parseNamedTag] at h
    · intro t d r h; simp [tagParseFuncs] at h
    · intro d r h; simp [parseCompoundTag] at h
    · intro d r h; simp [parseCompoundLoop] at h
    · intro d r h; simp [parseListTag] at h
    · intro t c d r h
      cases c with
      | zero => simpa [parseListLoop] using h
      | succ c => simp [parseListLoop] at h
  | succ k ih =>
    intro fuel' hf
    obtain ⟨k', rfl⟩ : ∃ k', fuel' = k' + 1 := ⟨fuel' - 1, by omega⟩
    obtain ⟨ihN, ihD, ihC, ihCL, ihL, ihLL⟩ := ih k' (by omega)
    refine ⟨?_, ?_, ?_, ?_, ?_, ?_⟩
    · intro d r h
      cases d with
      | nil => simp [parseNamedTag] at h
      | cons t rest =>
        simp only [parseNamedTag] at h ⊢
        by_cases ht : t = 0
        · rw [if_pos ht] at h ⊢
          cases hd : tagParseFuncs k 0 ((t :: rest).drop 1) with
          | none => rw [hd] at h; simp at h
          | some pr =>
            rw [hd] at h
            rw [ihD _ _ _ hd]
            exact h
        · rw [if_neg ht] at h ⊢
          cases hL : readU16 (t :: rest) 1 with
          | none => rw [hL] at h; simp at h
          | some L =>
            rw [hL] at h
            simp only [Option.some_bind] at h ⊢
            cases hs : goSlice (t :: rest) 3 ((3 + L) % 65536) with
            | none => rw [hs] at h; simp at h
            | some nm =>
              rw [hs] at h
              simp only [Option.some_bind] at h ⊢
              cases hd : tagParseFuncs k t ((t :: rest).drop ((3 + L) % 65536)) with
              | none => rw [hd] at h; simp at h
              | some pr =>
                rw [hd] at h
                rw [ihD _ _ _ hd]
                exact h
    · intro t d r h
      rcases t with _|_|_|_|_|_|_|_|_|_|_|n
      · exact h
      · exact h
      · exact h
      · exact h
      · exact h
      · exact h
      · exact h
      · exact h
      · exact h
      · exact ihL _ _ h
      · exact ihC _ _ h
      · exact h
    · intro d r h
      simp only [parseCompoundTag] at h ⊢
      cases hl : parseCompoundLoop k d with
      | none => rw [hl] at h; simp at h
      | some pr =>
        rw [hl] at h
        rw [ihCL _ _ hl]
        exact h
    · intro d r h
      simp only [parseCompoundLoop] at h ⊢
      cases hn : parseNamedTag k d with
      | none => rw [hn] at h; simp at h
      | some pr =>
        rw [hn] at h
        rw [ihN _ _ hn]
        simp only [Option.some_bind] at h ⊢
        by_cases htag : pr.1.tagType = 0
        · rw [if_pos htag] at h ⊢; exact h
        · rw [if_neg htag] at h ⊢
          by_cases hlen : pr.2 ≤ d.length
          · rw [if_pos hlen] at h ⊢
            cases hrec : parseCompoundLoop k (d.drop pr.2) with
            | none => rw [hrec] at h; simp at h
            | some pr' =>
              rw [hrec] at h
              rw [ihCL _ _ hrec]
              exact h
          · rw [if_neg hlen] at h; exact absurd h (by simp)
    · intro d r h
      cases d with
      | nil => simp [parseListTag] at h
      | cons t rest =>
        simp only [parseListTag] at h ⊢
        cases hc : readU32 (t :: rest) 1 with
        | none => rw [hc] at h; simp at h
        | some count =>
          rw [hc] at h
          simp only [Option.some_bind] at h ⊢
          cases hl : parseListLoop k t count ((t :: rest).drop 5) with
          | none => rw [hl] at h; simp at h
          | some pr =>
            rw [hl] at h
            rw [ihLL _ _ _ _ hl]
            exact h
    · intro t c d r h
      cases c with
      | zero => simpa [parseListLoop] using h
      | succ c =>
        simp only [parseListLoop] at h ⊢
        cases hd : tagParseFuncs k t d with
        | none => rw [hd] at h; simp at h
        | some pr =>
          rw [hd] at h
          rw [ihD _ _ _ hd]
          simp only [Option.some_bind] at h ⊢
          by_cases hlen : pr.2 ≤ d.length
          · rw [if_pos hlen] at h ⊢
            cases hrec : parseListLoop k t c (d.drop pr.2) with
            | none => rw [hrec] at h; simp at h
            | some pr' =>
              rw [hrec] at h
              rw [ihLL _ _ _ _ hrec]
              exact h
          · rw [if_neg hlen] at h; exact absurd h (by simp)

/-- A successful big-endian 16-bit read is unaffected by appending bytes. -/
theorem readU16_ext {d : List Nat} {i L : Nat} (e : List Nat)
    (h : readU16 d i = some L) : readU16 (d ++ e) i = some L := by
  unfold readU16 at h ⊢
  by_cases hle : i + 2 ≤ d.length
  · rw [if_pos hle] at h
    rw [if_pos (by simp only [List.length_append]; omega)]
    rw [List.getD_append _ _ _ _ (by omega), List.getD_append _ _ _ _ (by omega)]
    exact h
  · rw [if_neg hle] at h; exact absurd h (by simp)

/-- A successful big-endian 32-bit read is unaffected by appending bytes. -/
theorem readU32_ext {d : List Nat} {i L : Nat} (e : List Nat)
    (h : readU32 d i = some L) : readU32 (d ++ e) i = some L := by
  unfold readU32 at h ⊢
  by_cases hle : i + 4 ≤ d.length
  · rw [if_pos hle] at h
    rw [if_pos (by simp only [List.length_append]; omega)]
    rw [List.getD_append _ _ _ _ (by omega), List.getD_append _ _ _ _ (by omega),
      List.getD_append _ _ _ _ (by omega), List.getD_append _ _ _ _ (by omega)]
    exact h
  · rw [if_neg hle] at h; exact absurd h (by simp)

/-- A successful big-endian 64-bit read is unaffected by appending bytes. -/
theorem readU64_ext {d : List Nat} {i L : Nat} (e : List Nat)
    (h : readU64 d i = some L) : readU64 (d ++ e) i = some L := by
  unfold readU64 at h ⊢
  by_cases hle : i + 8 ≤ d.length
  · rw [if_pos hle] at h
    rw [if_pos (by simp only [List.length_append]; omega)]
    rw [List.getD_append _ _ _ _ (by omega), List.getD_append _ _ _ _ (by omega),
      List.getD_append _ _ _ _ (by omega), List.getD_append _ _ _ _ (by omega),
      List.getD_append _ _ _ _ (by omega), List.getD_append _ _ _ _ (by omega),
      List.getD_append _ _ _ _ (by omega), List.getD_append _ _ _ _ (by omega)]
    exact h
  · rw [if_neg hle] at h; exact absurd h (by simp)

/-- A successful Go slice of a buffer is unaffected by appending bytes. -/
theorem goSlice_ext {d : List Nat} {lo hi : Nat} {s : List Nat} (e : List Nat)
    (h : goSlice d lo hi = some s) : goSlice (d ++ e) lo hi = some s := by
  unfold goSlice at h ⊢
  by_cases hc : lo ≤ hi ∧ hi ≤ d.length
  · rw [if_pos hc] at h
    rw [if_pos ⟨hc.1, by simp only [List.length_append]; omega⟩]
    rw [List.drop_append_of_le_length (by omega)]
    rw [List.take_append_of_le_length (by rw [List.length_drop]; omega)]
    exact h
  · rw [if_neg hc] at h; exact absurd h (by simp)

/-- A successful parse reads only the portion of the buffer it consumes:
appending arbitrary extra bytes leaves the result of every parsing function
unchanged. -/
theorem parseExtAll : ∀ fuel (e : List Nat),
    (∀ d r, parseNamedTag fuel d = some r → parseNamedTag fuel (d ++ e) = some r) ∧
    (∀ t d r, tagParseFuncs fuel t d = some r → tagParseFuncs fuel t (d ++ e) = some r) ∧
    (∀ d r, parseCompoundTag fuel d = some r → parseCompoundTag fuel (d ++ e) = some r) ∧
    (∀ d r, parseCompoundLoop fuel d = some r → parseCompoundLoop fuel (d ++ e) = some r) ∧
    (∀ d r, parseListTag fuel d = some r → parseListTag fuel (d ++ e) = some r) ∧
    (∀ t c d r, parseListLoop fuel t c d = some r → parseListLoop fuel t c (d ++ e) = some r) := by
  intro fuel
  induction fuel with
  | zero =>
    intro e
    refine ⟨?_, ?_, ?_, ?_, ?_, ?_⟩
    · intro d r h; simp [parseNamedTag] at h
    · intro t d r h; simp [tagParseFuncs] at h
    · intro d r h; simp [parseCompoundTag] at h
    · intro d r h; simp [parseCompoundLoop] at h
    · intro d r h; simp [parseListTag] at h
    · intro t c d r h
      cases c with
      | zero => simpa [parseListLoop] using h
      | succ c => simp [parseListLoop] at h
  | succ k ih =>
    intro e
    obtain ⟨ihN, ihD, ihC, ihCL, ihL, ihLL⟩ := ih e
    refine ⟨?_, ?_, ?_, ?_, ?_, ?_⟩
    · intro d r h
      cases d with
      | nil => simp [parseNamedTag] at h
      | cons t rest =>
        simp only [List.cons_append, parseNamedTag] at h ⊢
        by_cases ht : t = 0
        · rw [if_pos ht] at h ⊢
          simp only [List.drop_succ_cons, List.drop_zero] at h ⊢
          cases hd : tagParseFuncs k 0 rest with
          | none => rw [hd] at h; simp at h
          | some pr =>
            rw [hd] at h
            rw [ihD _ _ _ hd]
            exact h
        · rw [if_neg ht] at h ⊢
          cases hL : readU16 (t :: rest) 1 with
          | none => rw [hL] at h; simp at h
          | some L =>
            rw [hL] at h
            rw [show (t :: (rest ++ e)) = (t :: rest) ++ e from rfl,
              readU16_ext e hL]
            simp only [Option.some_bind] at h ⊢
            cases hs : goSlice (t :: rest) 3 ((3 + L) % 65536) with
            | none => rw [hs] at h; simp at h
            | some nm =>
              rw [hs] at h
              rw [goSlice_ext e hs]
              simp only [Option.some_bind] at h ⊢
              have hps : (3 + L) % 65536 ≤ (t :: rest).length := by
                unfold goSlice at hs
                by_cases hc : 3 ≤ (3 + L) % 65536 ∧ (3 + L) % 65536 ≤ (t :: rest).length
                · exact hc.2
                · rw [if_neg hc] at hs; exact absurd hs (by simp)
              cases hd : tagParseFuncs k t ((t :: rest).drop ((3 + L) % 65536)) with
              | none => rw [hd] at h; simp at h
              | some pr =>
                rw [hd] at h
                rw [List.drop_append_of_le_length hps]
                rw [ihD _ _ _ hd]
                exact h
    · intro t d r h
      rcases t with _|_|_|_|_|_|_|_|_|_|_|n
      · exact h
      · simp only [tagParseFuncs] at h ⊢
        cases d with
        | nil => simp at h
        | cons b rest => simpa using h
      · simp only [tagParseFuncs] at h ⊢
        cases hw : readU16 d 0 with
        | none => rw [hw] at h; simp at h
        | some w => rw [hw] at h; rw [readU16_ext e hw]; exact h
      · simp only [tagParseFuncs] at h ⊢
        cases hw : readU32 d 0 with
        | none => rw [hw] at h; simp at h
        | some w => rw [hw] at h; rw [readU32_ext e hw]; exact h
      · simp only [tagParseFuncs] at h ⊢
        cases hw : readU64 d 0 with
        | none => rw [hw] at h; simp at h
        | some w => rw [hw] at h; rw [readU64_ext e hw]; exact h
      · simp only [tagParseFuncs] at h ⊢
        cases hw : readU32 d 0 with
        | none => rw [hw] at h; simp at h
        | some w => rw [hw] at h; rw [readU32_ext e hw]; exact h
      · simp only [tagParseFuncs] at h ⊢
        cases hw : readU64 d 0 with
        | none => rw [hw] at h; simp at h
        | some w => rw [hw] at h; rw [readU64_ext e hw]; exact h
      · simp only [tagParseFuncs] at h ⊢
        cases hw : readU32 d 0 with
        | none => rw [hw] at h; simp at h
        | some w =>
          rw [hw] at h
          rw [readU32_ext e hw]
          simp only [Option.some_bind] at h ⊢
          cases hs : goSlice d 4 ((4 + w) % 4294967296) with
          | none => rw [hs] at h; simp at h
          | some bs => rw [hs] at h; rw [goSlice_ext e hs]; exact h
      · simp only [tagParseFuncs] at h ⊢
        cases hw : readU16 d 0 with
        | none => rw [hw] at h; simp at h
        | some w =>
          rw [hw] at h
          rw [readU16_ext e hw]
          simp only [Option.some_bind] at h ⊢
          cases hs : goSlice d 2 ((2 + w) % 65536) with
          | none => rw [hs] at h; simp at h
          | some s => rw [hs] at h; rw [goSlice_ext e hs]; exact h
      · exact ihL _ _ h
      · exact ihC _ _ h
      · simp [tagParseFuncs] at h
    · intro d r h
      simp only [parseCompoundTag] at h ⊢
      cases hl : parseCompoundLoop k d with
      | none => rw [hl] at h; simp at h
      | some pr =>
        rw [hl] at h
        rw [ihCL _ _ hl]
        exact h
    · intro d r h
      simp only [parseCompoundLoop] at h ⊢
      cases hn : parseNamedTag k d with
      | none => rw [hn] at h; simp at h
      | some pr =>
        rw [hn] at h
        rw [ihN _ _ hn]
        simp only [Option.some_bind] at h ⊢
        by_cases htag : pr.1.tagType = 0
        · rw [if_pos htag] at h ⊢; exact h
        · rw [if_neg htag] at h ⊢
          by_cases hlen : pr.2 ≤ d.length
          · rw [if_pos hlen] at h
            rw [if_pos (by simp only [List.length_append]; omega)]
            cases hrec : parseCompoundLoop k (d.drop pr.2) with
            | none => rw [hrec] at h; simp at h
            | some pr' =>
              rw [hrec] at h
              rw [List.drop_append_of_le_length hlen]
              rw [ihCL _ _ hrec]
              exact h
          · rw [if_neg hlen] at h; exact absurd h (by simp)
    · intro d r h
      cases d with
      | nil => simp [parseListTag] at h
      | cons t rest =>
        simp only [List.cons_append, parseListTag] at h ⊢
        cases hc : readU32 (t :: rest) 1 with
        | none => rw [hc] at h; simp at h
        | some count =>
          rw [hc] at h
          rw [show (t :: (rest ++ e)) = (t :: rest) ++ e from rfl,
            readU32_ext e hc]
          simp only [Option.some_bind] at h ⊢
          have h5 : 5 ≤ (t :: rest).length := by
            unfold readU32 at hc
            by_cases hle : 1 + 4 ≤ (t :: rest).length
            · simpa using hle
            · rw [if_neg hle] at hc; exact absurd hc (by simp)
          cases hl : parseListLoop k t count ((t :: rest).drop 5) with
          | none => rw [hl] at h; simp at h
          | some pr =>
            rw [hl] at h
            rw [List.drop_append_of_le_length h5]
            rw [ihLL _ _ _ _ hl]
            exact h
    · intro t c d r h
      cases c with
      | zero => simpa [parseListLoop] using h
      | succ c =>
        simp only [parseListLoop] at h ⊢
        cases hd : tagParseFuncs k t d with
        | none => rw [hd] at h; simp at h
        | some pr =>
          rw [hd] at h
          rw [ihD _ _ _ hd]
          simp only [Option.some_bind] at h ⊢
          by_cases hlen : pr.2 ≤ d.length
          · rw [if_pos hlen] at h
            rw [if_pos (by simp only [List.length_append]; omega)]
            cases hrec : parseListLoop k t c (d.drop pr.2) with
            | none => rw [hrec] at h; simp at h
            | some pr' =>
              rw [hrec] at h
              rw [List.drop_append_of_le_length hlen]
              rw [ihLL _ _ _ _ hrec]
              exact h
          · rw [if_neg hlen] at h; exact absurd h (by simp)

/-- In a byte buffer, every in-range `getD` yields a byte value. -/
theorem getD_lt_of_byteBuf {d : List Nat} (hb : IsByteBuf d) {i : Nat}
    (h : i < d.length) : d.getD i 0 < 256 := by
  rw [List.getD_eq_getElem d 0 h]
  exact hb _ (List.getElem_mem h)

/-- A 16-bit read from a byte buffer is below `2^16`. -/
theorem readU16_lt {d : List Nat} (hb : IsByteBuf d) {i L : Nat}
    (h : readU16 d i = some L) : L < 65536 := by
  unfold readU16 at h
  by_cases hle : i + 2 ≤ d.length
  · rw [if_pos hle] at h
    have h0 := getD_lt_of_byteBuf hb (i := i) (by omega)
    have h1 := getD_lt_of_byteBuf hb (i := i + 1) (by omega)
    have : L = d.getD i 0 * 256 + d.getD (i+1) 0 := by
      simpa using h.symm
    omega
  · rw [if_neg hle] at h; exact absurd h (by simp)

/-- A 32-bit read from a byte buffer is below `2^32`. -/
theorem readU32_lt {d : List Nat} (hb : IsByteBuf d) {i L : Nat}
    (h : readU32 d i = some L) : L < 4294967296 := by
  unfold readU32 at h
  by_cases hle : i + 4 ≤ d.length
  · rw [if_pos hle] at h
    have h0 := getD_lt_of_byteBuf hb (i := i) (by omega)
    have h1 := getD_lt_of_byteBuf hb (i := i + 1) (by omega)
    have h2 := getD_lt_of_byteBuf hb (i := i + 2) (by omega)
    have h3 := getD_lt_of_byteBuf hb (i := i + 3) (by omega)
    have : L = ((d.getD i 0 * 256 + d.getD (i+1) 0) * 256 + d.getD (i+2) 0) * 256
        + d.getD (i+3) 0 := by
      simpa using h.symm
    omega
  · rw [if_neg hle] at h; exact absurd h (by simp)

/-- The dispatch-table entry for End always returns an empty payload having
consumed 0 bytes (when it returns at all). -/
theorem tagParseFuncs_end {fuel : Nat} {d : List Nat} {r : Tag × Nat}
    (h : tagParseFuncs fuel 0 d = some r) : r = (.nilTag, 0) := by
  cases fuel with
  | zero => simp [tagParseFuncs] at h
  | succ k => simpa [tagParseFuncs] using h.symm

/-- A successfully decoded named tag whose type is End is exactly the
1-byte End tag: empty name, `nil` payload, 1 byte consumed. -/
theorem parseNamedTag_end {fuel : Nat} {d : List Nat} {tag : NamedTag} {n : Nat}
    (h : parseNamedTag fuel d = some (tag, n)) (htag : tag.tagType = 0) :
    tag = .mk 0 [] .nilTag ∧ n = 1 := by
  cases fuel with
  | zero => simp [parseNamedTag] at h
  | succ k =>
    cases d with
    | nil => simp [parseNamedTag] at h
    | cons t rest =>
      simp only [parseNamedTag] at h
      by_cases ht : t = 0
      · rw [if_pos ht] at h
        cases hd : tagParseFuncs k 0 ((t :: rest).drop 1) with
        | none => rw [hd] at h; simp at h
        | some pr =>
          rw [hd] at h
          obtain rfl : pr = (.nilTag, 0) := tagParseFuncs_end hd
          simp only [Option.map_some', Option.some.injEq, Prod.mk.injEq] at h
          exact ⟨h.1.symm, by omega⟩
      · rw [if_neg ht] at h
        cases hL : readU16 (t :: rest) 1 with
        | none => rw [hL] at h; simp at h
        | some L =>
          rw [hL] at h
          simp only [Option.some_bind] at h
          cases hs : goSlice (t :: rest) 3 ((3 + L) % 65536) with
          | none => rw [hs] at h; simp at h
          | some nm =>
            rw [hs] at h
            simp only [Option.some_bind] at h
            cases hd : tagParseFuncs k t ((t :: rest).drop ((3 + L) % 65536)) with
            | none => rw [hd] at h; simp at h
            | some pr =>
              rw [hd] at h
              simp only [Option.map_some', Option.some.injEq, Prod.mk.injEq] at h
              exfalso
              apply ht
              rw [← h.1] at htag
              simpa [NamedTag.tagType] using htag

/-- Inversion for a successful named-tag parse: either the 1-byte End form,
or the type byte / 2-byte big-endian name length / name bytes / payload
decomposition, with the 16-bit payload-start arithmetic made explicit. -/
theorem parseNamedTag_inv {k : Nat} {d : List Nat} {tag : NamedTag} {n : Nat}
    (h : parseNamedTag (k+1) d = some (tag, n)) :
    ∃ t rest, d = t :: rest ∧
      ((t = 0 ∧ tag = .mk 0 [] .nilTag ∧ n = 1) ∨
       (t ≠ 0 ∧ ∃ L nm pl plLen,
          readU16 d 1 = some L ∧
          goSlice d 3 ((3 + L) % 65536) = some nm ∧
          tagParseFuncs k t (d.drop ((3 + L) % 65536)) = some (pl, plLen) ∧
          tag = .mk t nm pl ∧ n = (3 + L) % 65536 + plLen)) := by
  cases d with
  | nil => simp [parseNamedTag] at h
  | cons t rest =>
    refine ⟨t, rest, rfl, ?_⟩
    by_cases ht : t = 0
    · left
      refine ⟨ht, ?_⟩
      subst ht
      rw [show parseNamedTag (k+1) (0 :: rest) =
          (tagParseFuncs k 0 ((0 :: rest).drop 1)).map
            (fun pr => (NamedTag.mk 0 [] pr.1, 1 + pr.2)) from by
        simp [parseNamedTag]] at h
      cases hd : tagParseFuncs k 0 ((0 :: rest).drop 1) with
      | none => rw [hd] at h; simp at h
      | some pr =>
        rw [hd] at h
        obtain rfl : pr = (.nilTag, 0) := tagParseFuncs_end hd
        simp only [Option.map_some', Option.some.injEq, Prod.mk.injEq] at h
        exact ⟨h.1.symm, by omega⟩
    · right
      refine ⟨ht, ?_⟩
      simp only [parseNamedTag, if_neg ht] at h
      cases hL : readU16 (t :: rest) 1 with
      | none => rw [hL] at h; simp at h
      | some L =>
        rw [hL] at h
        simp only [Option.some_bind] at h
        cases hs : goSlice (t :: rest) 3 ((3 + L) % 65536) with
        | none => rw [hs] at h; simp at h
        | some nm =>
          rw [hs] at h
          simp only [Option.some_bind] at h
          cases hd : tagParseFuncs k t ((t :: rest).drop ((3 + L) % 65536)) with
          | none => rw [hd] at h; simp at h
          | some pr =>
            rw [hd] at h
            simp only [Option.map_some', Option.some.injEq, Prod.mk.injEq] at h
            exact ⟨L, nm, pr.1, pr.2, rfl, hs, hd, h.1.symm, h.2.symm⟩

/-- Inversion for a successful list-payload parse. -/
theorem parseListTag_inv {k : Nat} {d : List Nat} {v : Tag} {n : Nat}
    (h : parseListTag (k+1) d = some (v, n)) :
    ∃ t rest count elems m, d = t :: rest ∧ readU32 d 1 = some count ∧
      parseListLoop k t count (d.drop 5) = some (elems, m) ∧
      v = .listTag t elems ∧ n = 5 + m := by
  cases d with
  | nil => simp [parseListTag] at h
  | cons t rest =>
    simp only [parseListTag] at h
    cases hc : readU32 (t :: rest) 1 with
    | none => rw [hc] at h; simp at h
    | some count =>
      rw [hc] at h
      simp only [Option.some_bind] at h
      cases hl : parseListLoop k t count ((t :: rest).drop 5) with
      | none => rw [hl] at h; simp at h
      | some pr =>
        rw [hl] at h
        simp only [Option.map_some', Option.some.injEq, Prod.mk.injEq] at h
        exact ⟨t, rest, count, pr.1, pr.2, rfl, rfl, hl, h.1.symm, h.2.symm⟩

/-- Inversion for a successful compound-payload parse. -/
theorem parseCompoundTag_inv {k : Nat} {d : List Nat} {v : Tag} {n : Nat}
    (h : parseCompoundTag (k+1) d = some (v, n)) :
    ∃ tags, parseCompoundLoop k d = some (tags, n) ∧ v = .compound tags := by
  simp only [parseCompoundTag] at h
  cases hl : parseCompoundLoop k d with
  | none => rw [hl] at h; simp at h
  | some pr =>
    obtain ⟨tags1, n1⟩ := pr
    rw [hl] at h
    simp only [Option.map_some', Option.some.injEq, Prod.mk.injEq] at h
    exact ⟨tags1, by rw [h.2], h.1.symm⟩

/-- The sequential decomposition of a compound payload: each child named
tag is parsed at the running offset with its individual consumed count, in
input order; the sequence ends with a 1-byte End tag that is not appended. -/
inductive CompoundChain : Nat → List Nat → List NamedTag → List Nat → Prop where
  | last : ∀ fuel payload, parseNamedTag fuel payload = some (.mk 0 [] .nilTag, 1) →
      CompoundChain fuel payload [] []
  | cons : ∀ fuel payload tag len tags lens,
      parseNamedTag fuel payload = some (tag, len) → tag.tagType ≠ 0 →
      len ≤ payload.length →
      CompoundChain fuel (payload.drop len) tags lens →
      CompoundChain fuel payload (tag :: tags) (len :: lens)

/-- The sequential decomposition of a list payload: each element is decoded
by the dispatch-table entry for the declared element type, directly on the
unnamed payload, in input order. -/
inductive ListChain : Nat → Nat → List Nat → List Tag → List Nat → Prop where
  | nil : ∀ fuel t payload, ListChain fuel t payload [] []
  | cons : ∀ fuel t payload v len vs lens,
      tagParseFuncs fuel t payload = some (v, len) →
      len ≤ payload.length →
      ListChain fuel t (payload.drop len) vs lens →
      ListChain fuel t payload (v :: vs) (len :: lens)

/-- Compound chains are fuel-monotone. -/
theorem compoundChain_mono {f f' : Nat} (hle : f ≤ f') {p : List Nat}
    {tags : List NamedTag} {lens : List Nat} (h : CompoundChain f p tags lens) :
    CompoundChain f' p tags lens := by
  induction h with
  | last p hp => exact .last _ p ((parseMonoAll _ _ hle).1 _ _ hp)
  | cons p tag len tags lens hp hne hlen _ ih =>
    exact .cons _ p tag len tags lens ((parseMonoAll _ _ hle).1 _ _ hp) hne hlen ih

/-- List chains are fuel-monotone. -/
theorem listChain_mono {f f' : Nat} (hle : f ≤ f') {t : Nat} {p : List Nat}
    {vs : List Tag} {lens : List Nat} (h : ListChain f t p vs lens) :
    ListChain f' t p vs lens := by
  induction h with
  | nil p => exact .nil _ _ p
  | cons p v len vs lens hp hlen _ ih =>
    exact .cons _ _ p v len vs lens ((parseMonoAll _ _ hle).2.1 _ _ _ hp) hlen ih

/-- A successful compound loop yields a chain of children with individual
lengths, and consumes their sum plus the 1-byte terminal End tag. -/
theorem parseCompoundLoop_chain : ∀ fuel payload tags n,
    parseCompoundLoop fuel payload = some (tags, n) →
    ∃ lens, CompoundChain fuel payload tags lens ∧
      lens.length = tags.length ∧ n = lens.sum + 1 := by
  intro fuel
  induction fuel with
  | zero => intro payload tags n h; simp [parseCompoundLoop] at h
  | succ k ih =>
    intro payload tags n h
    simp only [parseCompoundLoop] at h
    cases hn : parseNamedTag k payload with
    | none => rw [hn] at h; simp at h
    | some pr =>
      obtain ⟨tag1, len1⟩ := pr
      rw [hn] at h
      simp only [Option.some_bind] at h
      by_cases htag : (tag1, len1).1.tagType = 0
      · rw [if_pos htag] at h
        simp only [Option.some.injEq, Prod.mk.injEq] at h
        obtain ⟨rfl, rfl⟩ := h
        obtain ⟨rfl, rfl⟩ := parseNamedTag_end hn htag
        exact ⟨[], .last _ _ ((parseMonoAll k (k+1) (by omega)).1 _ _ hn),
          rfl, by simp⟩
      · rw [if_neg htag] at h
        by_cases hlen : (tag1, len1).2 ≤ payload.length
        · rw [if_pos hlen] at h
          cases hrec : parseCompoundLoop k (payload.drop (tag1, len1).2) with
          | none => rw [hrec] at h; simp at h
          | some pr' =>
            rw [hrec] at h
            simp only [Option.map_some', Option.some.injEq, Prod.mk.injEq] at h
            obtain ⟨htags, hn'⟩ := h
            obtain ⟨lens', hchain, hlenlen, hsum⟩ := ih _ _ _ hrec
            refine ⟨len1 :: lens', ?_, ?_, ?_⟩
            · subst htags
              exact .cons _ _ _ _ _ _ ((parseMonoAll k (k+1) (by omega)).1 _ _ hn)
                htag hlen (compoundChain_mono (by omega) hchain)
            · subst htags; simpa using hlenlen
            · subst hn'; simp [hsum]; omega
        · rw [if_neg hlen] at h; exact absurd h (by simp)

/-- A successful list loop yields exactly `count` elements, each decoded by
the dispatch table, the total consumed being the sum of the individual
counts. -/
theorem parseListLoop_chain : ∀ fuel t c payload vs n,
    parseListLoop fuel t c payload = some (vs, n) →
    ∃ lens, ListChain fuel t payload vs lens ∧
      vs.length = c ∧ lens.length = c ∧ n = lens.sum := by
  intro fuel
  induction fuel with
  | zero =>
    intro t c payload vs n h
    cases c with
    | zero =>
      simp only [parseListLoop, Option.some.injEq, Prod.mk.injEq] at h
      obtain ⟨rfl, rfl⟩ := h
      exact ⟨[], .nil _ _ _, rfl, rfl, rfl⟩
    | succ c => simp [parseListLoop] at h
  | succ k ih =>
    intro t c payload vs n h
    cases c with
    | zero =>
      simp only [parseListLoop, Option.some.injEq, Prod.mk.injEq] at h
      obtain ⟨rfl, rfl⟩ := h
      exact ⟨[], .nil _ _ _, rfl, rfl, rfl⟩
    | succ c =>
      simp only [parseListLoop] at h
      cases hd : tagParseFuncs k t payload with
      | none => rw [hd] at h; simp at h
      | some pr =>
        obtain ⟨v1, len1⟩ := pr
        rw [hd] at h
        simp only [Option.some_bind] at h
        by_cases hlen : (v1, len1).2 ≤ payload.length
        · rw [if_pos hlen] at h
          cases hrec : parseListLoop k t c (payload.drop (v1, len1).2) with
          | none => rw [hrec] at h; simp at h
          | some pr' =>
            rw [hrec] at h
            simp only [Option.map_some', Option.some.injEq, Prod.mk.injEq] at h
            obtain ⟨hvs, hn'⟩ := h
            obtain ⟨lens', hchain, hvslen, hlenlen, hsum⟩ := ih _ _ _ _ _ hrec
            refine ⟨len1 :: lens', ?_, ?_, ?_, ?_⟩
            · subst hvs
              exact .cons _ _ _ _ _ _ _ ((parseMonoAll k (k+1) (by omega)).2.1 _ _ _ hd)
                hlen (listChain_mono (by omega) hchain)
            · subst hvs; simpa using hvslen
            · simpa using hlenlen
            · subst hn'; simp [hsum]
        · rw [if_neg hlen] at h; exact absurd h (by simp)

/-- The run-time shape a decoded payload value must have for each tag-type
identifier. -/
def tagShape : Nat → Tag → Prop
  | 0, v => v = .nilTag
  | 1, v => ∃ b, v = .byteVal b
  | 2, v => ∃ i, v = .shortVal i
  | 3, v => ∃ i, v = .intVal i
  | 4, v => ∃ i, v = .longVal i
  | 5, v => ∃ w, v = .floatVal w
  | 6, v => ∃ w, v = .doubleVal w
  | 7, v => ∃ bs, v = .byteArr bs
  | 8, v => ∃ s, v = .strVal s
  | 9, v => ∃ lt es, v = .listTag lt es
  | 10, v => ∃ ts, v = .compound ts
  | _+11, _ => False

/-- Every value produced by the dispatch table has the shape determined by
the tag-type identifier it was invoked with. -/
theorem tagParseFuncs_shape : ∀ {fuel t d v len},
    tagParseFuncs fuel t d = some (v, len) → tagShape t v := by
  intro fuel t d v len h
  cases fuel with
  | zero => simp [tagParseFuncs] at h
  | succ k =>
    rcases t with _|_|_|_|_|_|_|_|_|_|_|m
    · simp only [tagParseFuncs, Option.some.injEq, Prod.mk.injEq] at h
      exact h.1.symm
    · simp only [tagParseFuncs] at h
      cases d with
      | nil => simp at h
      | cons b rest =>
        simp only [Option.some.injEq, Prod.mk.injEq] at h
        exact ⟨b, h.1.symm⟩
    · simp only [tagParseFuncs] at h
      cases hw : readU16 d 0 with
      | none => rw [hw] at h; simp at h
      | some w =>
        rw [hw] at h
        simp only [Option.map_some', Option.some.injEq, Prod.mk.injEq] at h
        exact ⟨_, h.1.symm⟩
    · simp only [tagParseFuncs] at h
      cases hw : readU32 d 0 with
      | none => rw [hw] at h; simp at h
      | some w =>
        rw [hw] at h
        simp only [Option.map_some', Option.some.injEq, Prod.mk.injEq] at h
        exact ⟨_, h.1.symm⟩
    · simp only [tagParseFuncs] at h
      cases hw : readU64 d 0 with
      | none => rw [hw] at h; simp at h
      | some w =>
        rw [hw] at h
        simp only [Option.map_some', Option.some.injEq, Prod.mk.injEq] at h
        exact ⟨_, h.1.symm⟩
    · simp only [tagParseFuncs] at h
      cases hw : readU32 d 0 with
      | none => rw [hw] at h; simp at h
      | some w =>
        rw [hw] at h
        simp only [Option.map_some', Option.some.injEq, Prod.mk.injEq] at h
        exact ⟨_, h.1.symm⟩
    · simp only [tagParseFuncs] at h
      cases hw : readU64 d 0 with
      | none => rw [hw] at h; simp at h
      | some w =>
        rw [hw] at h
        simp only [Option.map_some', Option.some.injEq, Prod.mk.injEq] at h
        exact ⟨_, h.1.symm⟩
    · simp only [tagParseFuncs] at h
      cases hw : readU32 d 0 with
      | none => rw [hw] at h; simp at h
      | some w =>
        rw [hw] at h
        simp only [Option.some_bind] at h
        cases hs : goSlice d 4 ((4 + w) % 4294967296) with
        | none => rw [hs] at h; simp at h
        | some bs =>
          rw [hs] at h
          simp only [Option.map_some', Option.some.injEq, Prod.mk.injEq] at h
          exact ⟨_, h.1.symm⟩
    · simp only [tagParseFuncs] at h
      cases hw : readU16 d 0 with
      | none => rw [hw] at h; simp at h
      | some w =>
        rw [hw] at h
        simp only [Option.some_bind] at h
        cases hs : goSlice d 2 ((2 + w) % 65536) with
        | none => rw [hs] at h; simp at h
        | some s =>
          rw [hs] at h
          simp only [Option.map_some', Option.some.injEq, Prod.mk.injEq] at h
          exact ⟨_, h.1.symm⟩
    · have h' : parseListTag k d = some (v, len) := h
      cases k with
      | zero => simp [parseListTag] at h'
      | succ k' =>
        obtain ⟨t', rest, count, elems, m, _, _, _, hv, _⟩ := parseListTag_inv h'
        exact ⟨t', elems, hv⟩
    · have h' : parseCompoundTag k d = some (v, len) := h
      cases k with
      | zero => simp [parseCompoundTag] at h'
      | succ k' =>
        obtain ⟨tags, _, hv⟩ := parseCompoundTag_inv h'
        exact ⟨tags, hv⟩
    · simp [tagParseFuncs] at h

/-- A successful Go slice implies its bounds were in range. -/
theorem goSlice_le {d : List Nat} {lo hi : Nat} {s : List Nat}
    (h : goSlice d lo hi = some s) : lo ≤ hi ∧ hi ≤ d.length := by
  unfold goSlice at h
  by_cases hc : lo ≤ hi ∧ hi ≤ d.length
  · exact hc
  · rw [if_neg hc] at h; exact absurd h (by simp)

/-- Elements of the shapes lemma: every element of a chained list has the
declared shape. -/
theorem ListChain.shapes {f t : Nat} {p : List Nat} {vs : List Tag}
    {lens : List Nat} (h : ListChain f t p vs lens) :
    ∀ v ∈ vs, tagShape t v := by
  induction h with
  | nil _ => intro v hv; simp at hv
  | cons p v len vs lens hp hlen _ ih =>
    intro w hw
    rcases List.mem_cons.mp hw with rfl | hw
    · exact tagParseFuncs_shape hp
    · exact ih w hw

/-- C3: a successfully decoded named tag with non-End type byte `t` consists
of the type byte, a 2-byte big-endian name length `L`, the `L` name bytes
`data[3 : 3+L]`, and a payload decoded by the dispatch-table entry for `t`
on the rest, with total consumed `1 + 2 + L + payloadLen`; with type byte
End the tag is the empty-named, empty-payload tag consuming exactly 1 byte.
In particular bytes `01 00 03 61 62 63 05` decode to Byte "abc" = 5
consuming 7 bytes. -/
theorem C3_named_tag_format :
    (∀ fuel data tag n, IsByteBuf data → parseNamedTag fuel data = some (tag, n) →
      (∀ t rest, data = t :: rest → t ≠ 0 →
        ∃ L nm pl plLen, readU16 data 1 = some L ∧
          goSlice data 3 (3 + L) = some nm ∧
          tagParseFuncs fuel t (data.drop (3 + L)) = some (pl, plLen) ∧
          tag = .mk t nm pl ∧ n = 1 + 2 + L + plLen) ∧
      (∀ rest, data = 0 :: rest → tag = .mk 0 [] .nilTag ∧ n = 1)) ∧
    parseNamedTag 10 [1, 0, 3, 97, 98, 99, 5] =
      some (.mk 1 [97, 98, 99] (.byteVal 5), 7) := by
  constructor
  · intro fuel data tag n hb h
    cases fuel with
    | zero => simp [parseNamedTag] at h
    | succ k =>
      obtain ⟨t', rest', hd', hcase⟩ := parseNamedTag_inv h
      constructor
      · intro t rest hd ht
        subst hd
        obtain ⟨rfl, rfl⟩ : t' = t ∧ rest' = rest := by
          injection hd' with h1 h2; exact ⟨h1.symm, h2.symm⟩
        rcases hcase with ⟨ht0, _⟩ | ⟨_, L, nm, pl, plLen, hL, hs, hdp, htag, hn⟩
        · exact absurd ht0 ht
        · have hLlt : L < 65536 := readU16_lt hb hL
          have hps : (3 + L) % 65536 = 3 + L := by
            have h3 := (goSlice_le hs).1
            omega
          rw [hps] at hs hdp hn
          exact ⟨L, nm, pl, plLen, hL, hs,
            (parseMonoAll k (k+1) (by omega)).2.1 _ _ _ hdp, htag, by omega⟩
      · intro rest hd
        subst hd
        obtain ⟨rfl, rfl⟩ : t' = 0 ∧ rest' = rest := by
          injection hd' with h1 h2; exact ⟨h1.symm, h2.symm⟩
        rcases hcase with ⟨_, htag, hn⟩ | ⟨ht0, _⟩
        · exact ⟨htag, hn⟩
        · exact absurd rfl ht0
  · rfl

/-- Witness for C3 at the spec's scalar scenario bytes. -/
theorem C3_named_tag_format_witness :
    IsByteBuf [1, 0, 3, 97, 98, 99, 5] ∧
    ∃ L nm pl plLen, readU16 [1, 0, 3, 97, 98, 99, 5] 1 = some L ∧
      goSlice [1, 0, 3, 97, 98, 99, 5] 3 (3 + L) = some nm ∧
      tagParseFuncs 10 1 ([1, 0, 3, 97, 98, 99, 5].drop (3 + L)) = some (pl, plLen) ∧
      NamedTag.mk 1 [97, 98, 99] (.byteVal 5) = .mk 1 nm pl ∧
      7 = 1 + 2 + L + plLen :=
  ⟨by decide,
    (C3_named_tag_format.1 10 [1, 0, 3, 97, 98, 99, 5]
      (.mk 1 [97, 98, 99] (.byteVal 5)) 7 (by decide) rfl).1
      1 [0, 3, 97, 98, 99, 5] rfl (by decide)⟩

/-- C6: each scalar dispatch-table entry consumes exactly its fixed width
(End 0, Byte 1, Short 2, Int 4, Long 8, Float 4, Double 8) or its
length-prefix-derived width (ByteArray `4+N`, String `2+N`), interpreting
every multi-byte field big-endian; bytes `00 00 00 05` decode as Int 5
consuming 4 bytes. -/
theorem C6_scalar_widths (fuel : Nat) (p : List Nat) (hb : IsByteBuf p) :
    (∀ v len, tagParseFuncs fuel 0 p = some (v, len) → len = 0 ∧ v = .nilTag) ∧
    (∀ v len, tagParseFuncs fuel 1 p = some (v, len) →
      len = 1 ∧ ∃ b rest, p = b :: rest ∧ v = .byteVal b) ∧
    (∀ v len, tagParseFuncs fuel 2 p = some (v, len) →
      len = 2 ∧ ∃ w, readU16 p 0 = some w ∧ v = .shortVal (toInt16 w)) ∧
    (∀ v len, tagParseFuncs fuel 3 p = some (v, len) →
      len = 4 ∧ ∃ w, readU32 p 0 = some w ∧ v = .intVal (toInt32 w)) ∧
    (∀ v len, tagParseFuncs fuel 4 p = some (v, len) →
      len = 8 ∧ ∃ w, readU64 p 0 = some w ∧ v = .longVal (toInt64 w)) ∧
    (∀ v len, tagParseFuncs fuel 5 p = some (v, len) →
      len = 4 ∧ ∃ w, readU32 p 0 = some w ∧ v = .floatVal w) ∧
    (∀ v len, tagParseFuncs fuel 6 p = some (v, len) →
      len = 8 ∧ ∃ w, readU64 p 0 = some w ∧ v = .doubleVal w) ∧
    (∀ v len, tagParseFuncs fuel 7 p = some (v, len) →
      ∃ N bs, readU32 p 0 = some N ∧ len = 4 + N ∧
        goSlice p 4 (4 + N) = some bs ∧ v = .byteArr bs) ∧
    (∀ v len, tagParseFuncs fuel 8 p = some (v, len) →
      ∃ N s, readU16 p 0 = some N ∧ len = 2 + N ∧
        goSlice p 2 (2 + N) = some s ∧ v = .strVal s) ∧
    tagParseFuncs 1 3 [0, 0, 0, 5] = some (.intVal 5, 4) := by
  cases fuel with
  | zero =>
    refine ⟨?_, ?_, ?_, ?_, ?_, ?_, ?_, ?_, ?_, rfl⟩ <;>
      (intro v len h; simp [tagParseFuncs] at h)
  | succ k =>
    refine ⟨?_, ?_, ?_, ?_, ?_, ?_, ?_, ?_, ?_, rfl⟩
    · intro v len h
      simp only [tagParseFuncs, Option.some.injEq, Prod.mk.injEq] at h
      exact ⟨h.2.symm, h.1.symm⟩
    · intro v len h
      simp only [tagParseFuncs] at h
      cases p with
      | nil => simp at h
      | cons b rest =>
        simp only [Option.some.injEq, Prod.mk.injEq] at h
        exact ⟨h.2.symm, b, rest, rfl, h.1.symm⟩
    · intro v len h
      simp only [tagParseFuncs] at h
      cases hw : readU16 p 0 with
      | none => rw [hw] at h; simp at h
      | some w =>
        rw [hw] at h
        simp only [Option.map_some', Option.some.injEq, Prod.mk.injEq] at h
        exact ⟨h.2.symm, w, rfl, h.1.symm⟩
    · intro v len h
      simp only [tagParseFuncs] at h
      cases hw : readU32 p 0 with
      | none => rw [hw] at h; simp at h
      | some w =>
        rw [hw] at h
        simp only [Option.map_some', Option.some.injEq, Prod.mk.injEq] at h
        exact ⟨h.2.symm, w, rfl, h.1.symm⟩
    · intro v len h
      simp only [tagParseFuncs] at h
      cases hw : readU64 p 0 with
      | none => rw [hw] at h; simp at h
      | some w =>
        rw [hw] at h
        simp only [Option.map_some', Option.some.injEq, Prod.mk.injEq] at h
        exact ⟨h.2.symm, w, rfl, h.1.symm⟩
    · intro v len h
      simp only [tagParseFuncs] at h
      cases hw : readU32 p 0 with
      | none => rw [hw] at h; simp at h
      | some w =>
        rw [hw] at h
        simp only [Option.map_some', Option.some.injEq, Prod.mk.injEq] at h
        exact ⟨h.2.symm, w, rfl, h.1.symm⟩
    · intro v len h
      simp only [tagParseFuncs] at h
      cases hw : readU64 p 0 with
      | none => rw [hw] at h; simp at h
      | some w =>
        rw [hw] at h
        simp only [Option.map_some', Option.some.injEq, Prod.mk.injEq] at h
        exact ⟨h.2.symm, w, rfl, h.1.symm⟩
    · intro v len h
      simp only [tagParseFuncs] at h
      cases hw : readU32 p 0 with
      | none => rw [hw] at h; simp at h
      | some w =>
        rw [hw] at h
        simp only [Option.some_bind] at h
        cases hs : goSlice p 4 ((4 + w) % 4294967296) with
        | none => rw [hs] at h; simp at h
        | some bs =>
          rw [hs] at h
          simp only [Option.map_some', Option.some.injEq, Prod.mk.injEq] at h
          have hwlt : w < 4294967296 := readU32_lt hb hw
          have h4 : 4 ≤ (4 + w) % 4294967296 := (goSlice_le hs).1
          have heq : (4 + w) % 4294967296 = 4 + w := by omega
          rw [heq] at hs
          exact ⟨w, bs, rfl, by omega, hs, h.1.symm⟩
    · intro v len h
      simp only [tagParseFuncs] at h
      cases hw : readU16 p 0 with
      | none => rw [hw] at h; simp at h
      | some w =>
        rw [hw] at h
        simp only [Option.some_bind] at h
        cases hs : goSlice p 2 ((2 + w) % 65536) with
        | none => rw [hs] at h; simp at h
        | some s =>
          rw [hs] at h
          simp only [Option.map_some', Option.some.injEq, Prod.mk.injEq] at h
          have hwlt : w < 65536 := readU16_lt hb hw
          have h2 : 2 ≤ (2 + w) % 65536 := (goSlice_le hs).1
          have heq : (2 + w) % 65536 = 2 + w := by omega
          rw [heq] at hs
          exact ⟨w, s, rfl, by omega, hs, h.1.symm⟩

/-- Witness for C6 at the spec's `00 00 00 05` Int example. -/
theorem C6_scalar_widths_witness :
    IsByteBuf [0, 0, 0, 5] ∧
    (4 = 4 ∧ ∃ w, readU32 [0, 0, 0, 5] 0 = some w ∧
      Tag.intVal 5 = .intVal (toInt32 w)) :=
  ⟨by decide,
    (C6_scalar_widths 1 [0, 0, 0, 5] (by decide)).2.2.2.1 (.intVal 5) 4 rfl⟩

/-- C9: a list payload with count field 0 decodes successfully, consuming
exactly the 5 header bytes, for every element-type byte `b` — including
identifiers outside 0–10 — because the dispatch table is never consulted
when the element loop runs zero times. -/
theorem C9_empty_list (fuel b : Nat) (rest : List Nat) :
    parseListTag (fuel + 1) (b :: 0 :: 0 :: 0 :: 0 :: rest) =
      some (.listTag b [], 5) := by
  simp only [parseListTag]
  rw [show readU32 (b :: 0 :: 0 :: 0 :: 0 :: rest) 1 = some 0 from by
    simp [readU32]]
  simp [parseListLoop]

/-- C4: a successful compound-payload decode consumes the sum of the
children's individually reported consumed counts plus exactly 1 for the
terminal End tag; the End tag is not appended, and the children appear in
encounter order (the chain parses each child at the running offset). -/
theorem C4_compound_consumed : ∀ fuel payload tags n,
    parseCompoundTag fuel payload = some (.compound tags, n) →
    ∃ lens, CompoundChain fuel payload tags lens ∧
      lens.length = tags.length ∧ n = lens.sum + 1 := by
  intro fuel payload tags n h
  cases fuel with
  | zero => simp [parseCompoundTag] at h
  | succ k =>
    obtain ⟨tags', hloop, hv⟩ := parseCompoundTag_inv h
    have heq : tags' = tags := by injection hv with h1; exact h1.symm
    rw [heq] at hloop
    obtain ⟨lens, hchain, h1, h2⟩ := parseCompoundLoop_chain k payload tags n hloop
    exact ⟨lens, compoundChain_mono (by omega) hchain, h1, h2⟩

/-- Witness for C4 at the spec's compound scenario payload
`01 00 01 78 07 00` (one Byte child "x" = 7, then End). -/
theorem C4_compound_consumed_witness :
    ∃ lens, CompoundChain 10 [1, 0, 1, 120, 7, 0] [.mk 1 [120] (.byteVal 7)] lens ∧
      lens.length = [NamedTag.mk 1 [120] (.byteVal 7)].length ∧ 6 = lens.sum + 1 :=
  C4_compound_consumed 10 [1, 0, 1, 120, 7, 0] [.mk 1 [120] (.byteVal 7)] 6 rfl

/-- C5: a successful list-payload decode reads 1 element-type byte and a
4-byte big-endian count, then decodes exactly `count` unnamed payloads via
the dispatch table (never a name field), consuming `5 +` the sum of the
per-element counts, every element having the declared type's shape. -/
theorem C5_list_decode : ∀ fuel payload t elems n,
    parseListTag fuel payload = some (.listTag t elems, n) →
    ∃ count lens, payload.head? = some t ∧ readU32 payload 1 = some count ∧
      elems.length = count ∧ lens.length = count ∧ n = 5 + lens.sum ∧
      ListChain fuel t (payload.drop 5) elems lens ∧
      ∀ v ∈ elems, tagShape t v := by
  intro fuel payload t elems n h
  cases fuel with
  | zero => simp [parseListTag] at h
  | succ k =>
    obtain ⟨t', rest, count, elems', m, hd, hc, hloop, hv, hn⟩ := parseListTag_inv h
    have heq : t' = t ∧ elems' = elems := by
      injection hv with h1 h2; exact ⟨h1.symm, h2.symm⟩
    rw [heq.1] at hd
    rw [heq.1, heq.2] at hloop
    obtain ⟨lens, hchain, h1, h2, h3⟩ := parseListLoop_chain k t count _ elems m hloop
    exact ⟨count, lens, by rw [hd]; rfl, hc, h1, h2, by omega,
      listChain_mono (by omega) hchain, hchain.shapes⟩

/-- Witness for C5 at the spec's list scenario payload
`01 00 00 00 02 01 02` (2 Bytes: 1, 2). -/
theorem C5_list_decode_witness :
    ∃ count lens, [1, 0, 0, 0, 2, 1, 2].head? = some 1 ∧
      readU32 [1, 0, 0, 0, 2, 1, 2] 1 = some count ∧
      [Tag.byteVal 1, Tag.byteVal 2].length = count ∧ lens.length = count ∧
      7 = 5 + lens.sum ∧
      ListChain 10 1 ([1, 0, 0, 0, 2, 1, 2].drop 5) [.byteVal 1, .byteVal 2] lens ∧
      ∀ v ∈ [Tag.byteVal 1, Tag.byteVal 2], tagShape 1 v :=
  C5_list_decode 10 [1, 0, 0, 0, 2, 1, 2] 1 [.byteVal 1, .byteVal 2] 7 rfl

/-- C8 (amended): a non-End named tag whose declared 2-byte name length is
65533 or more makes the 16-bit sum `3 + L` wrap below 3, so the Go name
slice `data[3 : 3+nameLength]` has its low bound above its high bound and
the parse panics (models as `none`): no payload is ever decoded at a
wrapped offset and no consumed count is reported. -/
theorem C8_wrapped_name_length_panics : ∀ fuel data t rest L,
    data = t :: rest → t ≠ 0 → IsByteBuf data → readU16 data 1 = some L →
    65533 ≤ L → parseNamedTag fuel data = none := by
  intro fuel data t rest L hd ht hb hL hge
  cases fuel with
  | zero => rfl
  | succ k =>
    subst hd
    cases hr : parseNamedTag (k + 1) (t :: rest) with
    | none => rfl
    | some r =>
      exfalso
      obtain ⟨tag, n⟩ := r
      obtain ⟨t', rest', hd', hcase⟩ := parseNamedTag_inv hr
      obtain ⟨rfl, rfl⟩ : t' = t ∧ rest' = rest := by
        injection hd' with h1 h2; exact ⟨h1.symm, h2.symm⟩
      rcases hcase with ⟨ht0, _⟩ | ⟨_, L', nm, pl, plLen, hL', hs, _, _, _⟩
      · exact ht ht0
      · have heq : L' = L := by
          rw [hL] at hL'; injection hL' with h1; exact h1.symm
        rw [heq] at hs
        have hLlt : L < 65536 := readU16_lt hb hL
        have h3 := (goSlice_le hs).1
        omega

/-- Witness for the amended C8 at name length 65533. -/
theorem C8_wrapped_name_length_panics_witness :
    IsByteBuf [1, 255, 253, 0] ∧ readU16 [1, 255, 253, 0] 1 = some 65533 ∧
      65533 ≤ 65533 ∧ parseNamedTag 7 [1, 255, 253, 0] = none :=
  ⟨by decide, rfl, by omega,
    C8_wrapped_name_length_panics 7 [1, 255, 253, 0] 1 [255, 253, 0] 65533
      rfl (by decide) (by decide) rfl (by omega)⟩

/-- Counterexample to C8 as stated: on `01 FF FD 00` the declared name
length is 65533, yet no payload is decoded at a wrapped-around offset and
no wrapped byte count is reported — the parse returns nothing at all (the
Go program panics on the invalid slice `data[3:0]`). -/
theorem C8_counterexample :
    readU16 [1, 255, 253, 0] 1 = some 65533 ∧
    parseNamedTag 10 [1, 255, 253, 0] = none := ⟨rfl, rfl⟩

/-- C10: the top-level entry point returns the first named tag decoded at
offset 0, discarding the consumed count; bytes after that tag are ignored
and do not affect the result. -/
theorem C10_top_level : ∀ fuel data extra tag n,
    parseNamedTag fuel data = some (tag, n) →
    ParseNBT fuel data = some tag ∧ ParseNBT fuel (data ++ extra) = some tag := by
  intro fuel data extra tag n h
  constructor
  · unfold ParseNBT; rw [h]; rfl
  · unfold ParseNBT; rw [(parseExtAll fuel extra).1 _ _ h]; rfl

/-- Witness for C10: trailing garbage `AA BB` after a complete tag is
ignored. -/
theorem C10_top_level_witness :
    ParseNBT 10 [1, 0, 3, 97, 98, 99, 5] = some (.mk 1 [97, 98, 99] (.byteVal 5)) ∧
    ParseNBT 10 ([1, 0, 3, 97, 98, 99, 5] ++ [170, 187]) =
      some (.mk 1 [97, 98, 99] (.byteVal 5)) :=
  C10_top_level 10 [1, 0, 3, 97, 98, 99, 5] [170, 187]
    (.mk 1 [97, 98, 99] (.byteVal 5)) 7 rfl

/-- C1 (code evaluation): the spec's compound scenario bytes parse in full,
but the same input truncated by its final End byte — a tag boundary — makes
the decoder read past the end of the buffer, which in the Go code is an
unchecked slice index that panics (`none` here); likewise a single type
byte with no name-length field panics.  No `TruncatedInputError` value
exists anywhere in the code. -/
theorem C1_truncation_panics :
    parseNamedTag 10 [10, 0, 0, 1, 0, 1, 120, 7, 0] =
      some (.mk 10 [] (.compound [.mk 1 [120] (.byteVal 7)]), 9) ∧
    parseNamedTag 10 [10, 0, 0, 1, 0, 1, 120, 7] = none ∧
    parseNamedTag 10 [1] = none := ⟨rfl, rfl, rfl⟩

/-- C2 (code evaluation): a tag-type identifier 0x0B — outside 0–10 — makes
the dispatch-table lookup yield the map's zero value, a `nil` function,
whose call panics (`none` here): as a named tag's type byte, as a list's
element-type byte (with count 1), and directly at the table. -/
theorem C2_unknown_type_panics :
    parseNamedTag 10 [11, 0, 0] = none ∧
    parseListTag 10 [11, 0, 0, 0, 1, 0] = none ∧
    tagParseFuncs 10 11 [0] = none := ⟨rfl, rfl, rfl⟩

/-- C7: the renderer emits `Type("name"): rendering` lines for named tags
and `Type: rendering` lines for unnamed list elements; Compound and List
renderings append the element count header, an opening brace line, the
children rendered at an indentation prefix exactly two spaces longer, and a
closing brace line at the parent's prefix — at every nesting level, since
the statements quantify over all tags and prefixes. -/
theorem C7_renderer_format :
    (∀ fuel tag pfx out, NamedTag.Print fuel tag pfx = some out →
      ∃ rest, out = pfx ++ typeToString tag.tagType ++ "(\""
        ++ strOfBytes tag.name ++ "\"): " ++ rest) ∧
    (∀ fuel pfx v t out, printUnnamedTag fuel pfx v t = some out →
      ∃ rest, out = pfx ++ typeToString t ++ ": " ++ rest) ∧
    (∀ fuel tt nm elems pfx out,
      NamedTag.Print (fuel+1) (.mk tt nm (.compound elems)) pfx = some out →
      tt = 10 →
      ∃ body, printNamedList fuel elems ("  " ++ pfx) = some body ∧
        ("  " ++ pfx).length = pfx.length + 2 ∧
        out = pfx ++ typeToString tt ++ "(\"" ++ strOfBytes nm ++ "\"): "
          ++ toString elems.length ++ " entries\n" ++ pfx ++ "\x7b\n"
          ++ body ++ pfx ++ "\x7d\n") ∧
    (∀ fuel tt nm lt elems pfx out,
      NamedTag.Print (fuel+1) (.mk tt nm (.listTag lt elems)) pfx = some out →
      tt = 9 →
      ∃ body, printUnnamedList fuel ("  " ++ pfx) elems lt = some body ∧
        ("  " ++ pfx).length = pfx.length + 2 ∧
        out = pfx ++ typeToString tt ++ "(\"" ++ strOfBytes nm ++ "\"): "
          ++ toString elems.length ++ " entries of type " ++ typeToString lt
          ++ "\n" ++ pfx ++ "\x7b\n" ++ body ++ pfx ++ "\x7d\n") ∧
    (∀ fuel elems pfx v out, printUnnamedTag (fuel+1) pfx v 10 = some out →
      v = .compound elems →
      ∃ body, printNamedList fuel elems ("  " ++ pfx) = some body ∧
        ("  " ++ pfx).length = pfx.length + 2 ∧
        out = pfx ++ typeToString 10 ++ ": " ++ toString elems.length
          ++ " entries\n" ++ pfx ++ "\x7b\n" ++ body ++ pfx ++ "\x7d\n") ∧
    (∀ fuel lt elems pfx v out, printUnnamedTag (fuel+1) pfx v 9 = some out →
      v = .listTag lt elems →
      ∃ body, printUnnamedList fuel ("  " ++ pfx) elems lt = some body ∧
        ("  " ++ pfx).length = pfx.length + 2 ∧
        out = pfx ++ typeToString 9 ++ ": " ++ toString elems.length
          ++ " entries of type " ++ typeToString lt ++ "\n" ++ pfx
          ++ "\x7b\n" ++ body ++ pfx ++ "\x7d\n") := by
  have h2 : ("  " : String).length = 2 := rfl
  have hind : ∀ pfx : String, ("  " ++ pfx).length = pfx.length + 2 := by
    intro pfx
    rw [String.length_append, h2]
    omega
  refine ⟨?_, ?_, ?_, ?_, ?_, ?_⟩
  · intro fuel tag pfx out h
    cases fuel with
    | zero => simp [NamedTag.Print] at h
    | succ k =>
      obtain ⟨tt, nm, payload⟩ := tag
      simp only [NamedTag.Print] at h
      by_cases h10 : tt = 10
      · rw [if_pos h10] at h
        cases payload with
        | compound elems =>
          replace h : (printNamedList k elems ("  " ++ pfx)).map (fun body =>
              pfx ++ typeToString tt ++ "(\"" ++ strOfBytes nm ++ "\"): "
              ++ toString elems.length ++ " entries\n" ++ pfx ++ "\x7b\n"
              ++ body ++ pfx ++ "\x7d\n") = some out := h
          cases hb : printNamedList k elems ("  " ++ pfx) with
          | none => rw [hb] at h; simp at h
          | some body =>
            rw [hb] at h
            simp only [Option.map_some', Option.some.injEq] at h
            refine ⟨toString elems.length ++ (" entries\n" ++ (pfx ++ ("\x7b\n"
              ++ (body ++ (pfx ++ "\x7d\n"))))), ?_⟩
            rw [← h]
            simp only [NamedTag.tagType, NamedTag.name, String.append_assoc]
        | listTag a b => simp at h
        | nilTag => simp at h
        | byteVal b => simp at h
        | shortVal a => simp at h
        | intVal a => simp at h
        | longVal a => simp at h
        | floatVal a => simp at h
        | doubleVal a => simp at h
        | byteArr a => simp at h
        | strVal a => simp at h
      · rw [if_neg h10] at h
        by_cases h9 : tt = 9
        · rw [if_pos h9] at h
          cases payload with
          | listTag lt elems =>
            replace h : (printUnnamedList k ("  " ++ pfx) elems lt).map (fun body =>
                pfx ++ typeToString tt ++ "(\"" ++ strOfBytes nm ++ "\"): "
                ++ toString elems.length ++ " entries of type " ++ typeToString lt
                ++ "\n" ++ pfx ++ "\x7b\n" ++ body ++ pfx ++ "\x7d\n") = some out := h
            cases hb : printUnnamedList k ("  " ++ pfx) elems lt with
            | none => rw [hb] at h; simp at h
            | some body =>
              rw [hb] at h
              simp only [Option.map_some', Option.some.injEq] at h
              refine ⟨toString elems.length ++ (" entries of type "
                ++ (typeToString lt ++ ("\n" ++ (pfx ++ ("\x7b\n"
                ++ (body ++ (pfx ++ "\x7d\n"))))))), ?_⟩
              rw [← h]
              simp only [NamedTag.tagType, NamedTag.name, String.append_assoc]
          | compound a => simp at h
          | nilTag => simp at h
          | byteVal b => simp at h
          | shortVal a => simp at h
          | intVal a => simp at h
          | longVal a => simp at h
          | floatVal a => simp at h
          | doubleVal a => simp at h
          | byteArr a => simp at h
          | strVal a => simp at h
        · rw [if_neg h9] at h
          simp only [Option.some.injEq] at h
          refine ⟨goValueString payload ++ "\n", ?_⟩
          rw [← h]
          simp only [NamedTag.tagType, NamedTag.name, String.append_assoc]
  · intro fuel pfx v t out h
    cases fuel with
    | zero => simp [printUnnamedTag] at h
    | succ k =>
      simp only [printUnnamedTag] at h
      by_cases h10 : t = 10
      · rw [if_pos h10] at h
        cases v with
        | compound elems =>
          replace h : (printNamedList k elems ("  " ++ pfx)).map (fun body =>
              pfx ++ typeToString t ++ ": " ++ toString elems.length
              ++ " entries\n" ++ pfx ++ "\x7b\n" ++ body ++ pfx ++ "\x7d\n")
              = some out := h
          cases hb : printNamedList k elems ("  " ++ pfx) with
          | none => rw [hb] at h; simp at h
          | some body =>
            rw [hb] at h
            simp only [Option.map_some', Option.some.injEq] at h
            refine ⟨toString elems.length ++ (" entries\n" ++ (pfx ++ ("\x7b\n"
              ++ (body ++ (pfx ++ "\x7d\n"))))), ?_⟩
            rw [← h]
            simp only [String.append_assoc]
        | listTag a b => simp at h
        | nilTag => simp at h
        | byteVal b => simp at h
        | shortVal a => simp at h
        | intVal a => simp at h
        | longVal a => simp at h
        | floatVal a => simp at h
        | doubleVal a => simp at h
        | byteArr a => simp at h
        | strVal a => simp at h
      · rw [if_neg h10] at h
        by_cases h9 : t = 9
        · rw [if_pos h9] at h
          cases v with
          | listTag lt elems =>
            replace h : (printUnnamedList k ("  " ++ pfx) elems lt).map (fun body =>
                pfx ++ typeToString t ++ ": " ++ toString elems.length
                ++ " entries of type " ++ typeToString lt ++ "\n" ++ pfx
                ++ "\x7b\n" ++ body ++ pfx ++ "\x7d\n") = some out := h
            cases hb : printUnnamedList k ("  " ++ pfx) elems lt with
            | none => rw [hb] at h; simp at h
            | some body =>
              rw [hb] at h
              simp only [Option.map_some', Option.some.injEq] at h
              refine ⟨toString elems.length ++ (" entries of type "
                ++ (typeToString lt ++ ("\n" ++ (pfx ++ ("\x7b\n"
                ++ (body ++ (pfx ++ "\x7d\n"))))))), ?_⟩
              rw [← h]
              simp only [String.append_assoc]
          | compound a => simp at h
          | nilTag => simp at h
          | byteVal b => simp at h
          | shortVal a => simp at h
          | intVal a => simp at h
          | longVal a => simp at h
          | floatVal a => simp at h
          | doubleVal a => simp at h
          | byteArr a => simp at h
          | strVal a => simp at h
        · rw [if_neg h9] at h
          simp only [Option.some.injEq] at h
          refine ⟨goValueString v ++ "\n", ?_⟩
          rw [← h]
          simp only [String.append_assoc]
  · intro fuel tt nm elems pfx out h h10
    subst h10
    replace h : (printNamedList fuel elems ("  " ++ pfx)).map (fun body =>
        pfx ++ typeToString 10 ++ "(\"" ++ strOfBytes nm ++ "\"): "
        ++ toString elems.length ++ " entries\n" ++ pfx ++ "\x7b\n"
        ++ body ++ pfx ++ "\x7d\n") = some out := h
    cases hb : printNamedList fuel elems ("  " ++ pfx) with
    | none => rw [hb] at h; simp at h
    | some body =>
      rw [hb] at h
      simp only [Option.map_some', Option.some.injEq] at h
      exact ⟨body, rfl, hind pfx, h.symm⟩
  · intro fuel tt nm lt elems pfx out h h9
    subst h9
    replace h : (printUnnamedList fuel ("  " ++ pfx) elems lt).map (fun body =>
        pfx ++ typeToString 9 ++ "(\"" ++ strOfBytes nm ++ "\"): "
        ++ toString elems.length ++ " entries of type " ++ typeToString lt
        ++ "\n" ++ pfx ++ "\x7b\n" ++ body ++ pfx ++ "\x7d\n") = some out := h
    cases hb : printUnnamedList fuel ("  " ++ pfx) elems lt with
    | none => rw [hb] at h; simp at h
    | some body =>
      rw [hb] at h
      simp only [Option.map_some', Option.some.injEq] at h
      exact ⟨body, rfl, hind pfx, h.symm⟩
  · intro fuel elems pfx v out h hv
    subst hv
    replace h : (printNamedList fuel elems ("  " ++ pfx)).map (fun body =>
        pfx ++ typeToString 10 ++ ": " ++ toString elems.length
        ++ " entries\n" ++ pfx ++ "\x7b\n" ++ body ++ pfx ++ "\x7d\n")
        = some out := h
    cases hb : printNamedList fuel elems ("  " ++ pfx) with
    | none => rw [hb] at h; simp at h
    | some body =>
      rw [hb] at h
      simp only [Option.map_some', Option.some.injEq] at h
      exact ⟨body, rfl, hind pfx, h.symm⟩
  · intro fuel lt elems pfx v out h hv
    subst hv
    replace h : (printUnnamedList fuel ("  " ++ pfx) elems lt).map (fun body =>
        pfx ++ typeToString 9 ++ ": " ++ toString elems.length
        ++ " entries of type " ++ typeToString lt ++ "\n" ++ pfx
        ++ "\x7b\n" ++ body ++ pfx ++ "\x7d\n") = some out := h
    cases hb : printUnnamedList fuel ("  " ++ pfx) elems lt with
    | none => rw [hb] at h; simp at h
    | some body =>
      rw [hb] at h
      simp only [Option.map_some', Option.some.injEq] at h
      exact ⟨body, rfl, hind pfx, h.symm⟩

/-- Witness for C7 at the spec's compound scenario rendering. -/
theorem C7_renderer_format_witness :
    ∃ body, printNamedList 9 [.mk 1 [120] (.byteVal 7)] ("  " ++ "") = some body ∧
      ("  " ++ "").length = "".length + 2 ∧
      "TAG_Compound(\"\"): 1 entries\n\x7b\n  TAG_Byte(\"x\"): 7\n\x7d\n" =
        "" ++ typeToString 10 ++ "(\"" ++ strOfBytes [] ++ "\"): "
        ++ toString [NamedTag.mk 1 [120] (.byteVal 7)].length ++ " entries\n"
        ++ "" ++ "\x7b\n" ++ body ++ "" ++ "\x7d\n" :=
  C7_renderer_format.2.2.1 9 10 [] [.mk 1 [120] (.byteVal 7)] ""
    "TAG_Compound(\"\"): 1 entries\n\x7b\n  TAG_Byte(\"x\"): 7\n\x7d\n"
    (by rfl) rfl

example : parseNamedTag 10 [1, 0, 3, 97, 98, 99, 5] =
    some (.mk 1 [97, 98, 99] (.byteVal 5), 7) := rfl

example : parseNamedTag 10 [10, 0, 0, 1, 0, 1, 120, 7, 0] =
    some (.mk 10 [] (.compound [.mk 1 [120] (.byteVal 7)]), 9) := rfl

example : parseNamedTag 10 [9, 0, 1, 108, 1, 0, 0, 0, 2, 1, 2] =
    some (.mk 9 [108] (.listTag 1 [.byteVal 1, .byteVal 2]), 11) := rfl

example : parseNamedTag 10 [1] = none := rfl

example : parseNamedTag 10 [11, 0, 0] = none := rfl

example : parseNamedTag 10 [1, 255, 253, 0] = none := rfl
